import Mathlib

/-!
Verification of the mention-webhook repository's reply-throttling policy,
post-processing, context pipeline and tracking helpers.

The cycle orchestrator is embedded from the `poll` loop of `src/polling.js`
(two variants of the file, separated in the source; they share the
eligibility/tracking/publish skeleton).  Strings that only serve as keys are
Lean `String`s; reply texts whose characters matter are `List Char`
(JavaScript strings at code-unit granularity).  External effects (the
publish call, the generation call) enter the model as explicit parameters.
-/

/-- Association map lookup with string keys, as a JS `Map.get` / object
property read: first matching key wins. -/
def lookupKey {α : Type} (m : List (String × α)) (k : String) : Option α :=
  match m with
  | [] => none
  | p :: rest => if p.1 = k then some p.2 else lookupKey rest k

/-- Association map update, as JS `Map.set` / object property write:
replaces the first matching key in place, otherwise appends. -/
def setKey {α : Type} (m : List (String × α)) (k : String) (v : α) : List (String × α) :=
  match m with
  | [] => [(k, v)]
  | p :: rest => if p.1 = k then (k, v) :: rest else p :: setKey rest k v

/-- Mention record as consumed by the `poll` loop of `src/polling.js`:
`id`, optional `conversation_id`, `author_id`, `text`. -/
structure Mention where
  id : String
  conversation_id : Option String
  author_id : String
  text : String
deriving DecidableEq, Repr

/-- Tracking key `` `${convId}:${authorId}` `` where
`convId = mention.conversation_id || mention.id` (src/polling.js). -/
def trackingKey (m : Mention) : String :=
  (m.conversation_id.getD m.id) ++ ":" ++ m.author_id

/-- ConversationMemoryEntry from `stage2-conversation-memory`
(src/unnamed/part_001): last reply text, last mention text, timestamp
(milliseconds), cumulative reply count. -/
structure MemEntry where
  last_reply : String
  last_mention : String
  last_reply_time : Int
  reply_count : Nat
deriving DecidableEq, Repr

/-- Memory key `` `${authorId}:${conversationId}` `` (src/unnamed/part_001). -/
def memKey (authorId conversationId : String) : String :=
  authorId ++ ":" ++ conversationId

/-- saveReplyToMemory from src/unnamed/part_001: stores the first 200
characters of reply and mention, the current time, and the incremented
per-pair reply count. -/
def saveReplyToMemory (mem : List (String × MemEntry))
    (authorId conversationId replyText mentionText : String) (now : Int) :
    List (String × MemEntry) :=
  let key := memKey authorId conversationId
  let entry : MemEntry :=
    { last_reply := replyText.take 200
      last_mention := mentionText.take 200
      last_reply_time := now
      reply_count := ((lookupKey mem key).map MemEntry.reply_count).getD 0 + 1 }
  setKey mem key entry

/-- Mutable state owned by the orchestrator of src/polling.js: the
`replyTracking` map (pair key to count), the `repliedMentions` set, the
conversation memory, and the `replyCount` counter. -/
structure CycleState where
  replyTracking : List (String × Nat)
  repliedMentions : List String
  convMemory : List (String × MemEntry)
  replyCount : Nat
deriving DecidableEq, Repr

/-- Reply count for a tracking key: `replyTracking[trackingKey] || 0`. -/
def getCount (tr : List (String × Nat)) (k : String) : Nat :=
  (lookupKey tr k).getD 0

/-- Outcome of a successful publish: the reply text that was posted and the
time of posting (the platform id itself is not stored). -/
structure PostSuccess where
  replyText : String
  postedAt : Int
deriving DecidableEq, Repr

/-- State updates performed inside `if (posted?.data?.id)` in
src/polling.js: bump `replyCount`, bump the pair's tracking count, add the
mention id to `repliedMentions`, and save conversation memory. -/
def applySuccess (st : CycleState) (m : Mention) (ps : PostSuccess) : CycleState :=
  { replyTracking :=
      setKey st.replyTracking (trackingKey m) (getCount st.replyTracking (trackingKey m) + 1)
    repliedMentions := m.id :: st.repliedMentions
    convMemory :=
      saveReplyToMemory st.convMemory m.author_id (m.conversation_id.getD m.id)
        ps.replyText m.text ps.postedAt
    replyCount := st.replyCount + 1 }

/-- Eligibility decision of the `poll` loop, in source order: skip when the
mention id is in the persistent `repliedMentions` set, when it was already
seen this cycle, or when the pair's tracking count has reached 3. -/
def eligible (st : CycleState) (seen : List String) (m : Mention) : Bool :=
  !(decide (m.id ∈ st.repliedMentions)) && !(decide (m.id ∈ seen)) &&
    decide (getCount st.replyTracking (trackingKey m) < 3)

/-- One pass of the mention loop in `poll` (src/polling.js).  `oracle m`
is the combined effect of research, generation and the publish call for
mention `m`: `some ps` when `posted?.data?.id` was truthy, `none` when any
of it threw, the candidate was rejected, or no id came back.  Returns the
final state, the `repliedThisCycle` counter and the ids actually posted to. -/
def runCycleAux (oracle : Mention → Option PostSuccess) :
    List Mention → CycleState → List String → Nat → List String →
    CycleState × Nat × List String
  | [], st, _, replied, posted => (st, replied, posted)
  | m :: rest, st, seen, replied, posted =>
    if 0 < replied then (st, replied, posted)
    else if m.id ∈ st.repliedMentions then
      runCycleAux oracle rest st seen replied posted
    else if m.id ∈ seen then
      runCycleAux oracle rest st seen replied posted
    else if 3 ≤ getCount st.replyTracking (trackingKey m) then
      runCycleAux oracle rest st seen replied posted
    else
      match oracle m with
      | some ps =>
        runCycleAux oracle rest (applySuccess st m ps) (m.id :: seen) (replied + 1)
          (m.id :: posted)
      | none => runCycleAux oracle rest st (m.id :: seen) replied posted

/-- One full poll cycle over a fetched batch of mentions, starting with
`repliedThisCycle = 0` and an empty `mentionsSeen` set. -/
def runCycle (oracle : Mention → Option PostSuccess) (mentions : List Mention)
    (st : CycleState) : CycleState × Nat × List String :=
  runCycleAux oracle mentions st [] 0 []

/-- isFollowUp from src/unnamed/part_001 (`stage2-conversation-memory`):
true when a memory entry exists for the pair, the time since its last
reply is under 5 minutes, and the first 100 characters of the mention text
differ from the stored last mention text.  `mentionText` is an
`Option String` because the call site in src/polling.js (line 291,
`isFollowUp(authorId, convId)`) passes no third argument, i.e. JavaScript
`undefined`; evaluating `mentionText.substring(0, 100)` on `undefined`
raises a TypeError, modelled as `Except.error`. -/
def isFollowUp (mem : List (String × MemEntry)) (authorId conversationId : String)
    (mentionText : Option String) (now : Int) : Except Unit Bool :=
  match lookupKey mem (memKey authorId conversationId) with
  | none => .ok false
  | some context =>
    let timeDiff := now - context.last_reply_time
    let withinWindow : Bool := decide (timeDiff < 300000)
    match mentionText with
    | none => .error ()
    | some text =>
      .ok (withinWindow && decide (text.take 100 ≠ context.last_mention.take 100))

/-- Row returned by the SQLite lookup in src/src/db.js (`SELECT id FROM
mentions WHERE user_id = ? AND timestamp > ?`). -/
structure DbRow where
  id : Int
deriving DecidableEq, Repr

/-- hasRecentReply from src/src/db.js: the sqlite callback is
`(err, row) => resolve(!!row)` — the promise only ever resolves (never
rejects), the error argument is ignored, and the result is just whether a
row came back.  On a database error sqlite invokes the callback with
`row = undefined`, so the promise resolves `false`. -/
def hasRecentReply (err : Option String) (row : Option DbRow) : Bool :=
  row.isSome

/-- Tweet record used by the thread-origin stage
(src/src/stages/stage1-thread-origin.js): `created_at` is modelled as the
millisecond value `new Date(t.created_at).getTime()` used by the sort
comparator. -/
structure Tweet where
  id : String
  text : String
  created_at : Int
deriving DecidableEq, Repr

/-- Sort order of `findThreadOrigin`: ascending by creation time. -/
def tweetLe (a b : Tweet) : Prop :=
  a.created_at ≤ b.created_at

instance : DecidableRel tweetLe :=
  fun a b => inferInstanceAs (Decidable (a.created_at ≤ b.created_at))

instance : IsTotal Tweet tweetLe :=
  ⟨fun a b => Int.le_total a.created_at b.created_at⟩

instance : IsTrans Tweet tweetLe :=
  ⟨fun _ _ _ h1 h2 => le_trans h1 h2⟩

/-- Result of findThreadOrigin: the root tweet, all tweets sorted, and the
thread length. -/
structure ThreadData where
  root : Tweet
  allTweets : List Tweet
  threadLength : Nat
deriving DecidableEq, Repr

/-- findThreadOrigin from src/src/stages/stage1-thread-origin.js.  `fetch`
is the outcome of the conversation search call: `Except.error` when the
call threw (caught and turned into `null`), otherwise `response.data || []`.
Empty data also yields `null`; otherwise the tweets are sorted ascending by
creation time (modelled by a stable insertion sort, matching the engine's
stable `Array.prototype.sort`) and the earliest tweet is the root. -/
def findThreadOrigin (fetch : Except Unit (List Tweet)) : Option ThreadData :=
  match fetch with
  | .error _ => none
  | .ok data =>
    if data.isEmpty then none
    else
      match List.insertionSort tweetLe data with
      | [] => none
      | root :: rest => some ⟨root, root :: rest, (root :: rest).length⟩

/-- JS `str.lastIndexOf(c)` on a character: -1 when absent, otherwise the
last index at which `c` occurs. -/
def lastIndexOf (l : List Char) (c : Char) : Int :=
  match l with
  | [] => -1
  | a :: rest =>
    let r := lastIndexOf rest c
    if 0 ≤ r then r + 1 else if a = c then 0 else -1

/-- Three-dot ellipsis appended by the hard cut of the first
post-processing variant in src/polling.js. -/
def ellipsis : List Char :=
  ['.', '.', '.']

/-- Truncation of the first variant of src/polling.js (lines 427-440):
above 240 characters, cut at the last space of the first 240 characters
when that space is past index 200, appending a '.' unless the cut already
ends in '.' or '!'; otherwise hard-cut to 237 characters plus "...". -/
def truncateA (replyText : List Char) : List Char :=
  if 240 < replyText.length then
    let truncated := replyText.take 240
    let lastSpace := lastIndexOf truncated ' '
    if 200 < lastSpace then
      let cut := truncated.take lastSpace.toNat
      if cut.getLast? = some '.' ∨ cut.getLast? = some '!' then cut else cut ++ ['.']
    else truncated.take 237 ++ ellipsis
  else replyText

/-- Characters stripped by `replace(/[\.,;:]*$/, '')` in the second
variant of src/polling.js. -/
def isStripPunct (c : Char) : Bool :=
  c == '.' || c == ',' || c == ';' || c == ':'

/-- Strip the trailing run of `.,;:` characters (the second variant's
`replace(/[\.,;:]*$/, '')`). -/
def dropTrailingPunct (l : List Char) : List Char :=
  (l.reverse.dropWhile isStripPunct).reverse

/-- Truncation of the second variant of src/polling.js (lines 783-794):
above 240 characters, cut at the last space of the first 240 characters
when that space is past index 200 and strip trailing punctuation;
otherwise hard-cut to 240 characters with nothing appended. -/
def truncateB (replyText : List Char) : List Char :=
  if 240 < replyText.length then
    let truncated := replyText.take 240
    let lastSpace := lastIndexOf truncated ' '
    if 200 < lastSpace then dropTrailingPunct (truncated.take lastSpace.toNat)
    else truncated.take 240
  else replyText

/-- Modelled from the claim's words (C4), for comparison with the code:
the post-processed output is at most 240 characters and is either a clean
prefix of the input cut at a whitespace boundary, or a hard cut with an
appended "..." ellipsis. -/
def claimTruncLaw (t out : List Char) : Bool :=
  decide (out.length ≤ 240) &&
    ((out.isPrefixOf t && (t.get? out.length).any Char.isWhitespace) ||
      out.drop (out.length - 3) == ellipsis)

/-- JS `hay.includes(pat)` on strings: substring containment. -/
def containsSub (pat hay : List Char) : Bool :=
  match hay with
  | [] => pat.isEmpty
  | _ :: rest => pat.isPrefixOf hay || containsSub pat rest

/-- `replyText.replace(/\?/g, '.')` (line 452 of src/polling.js, first
variant): every question mark becomes a period. -/
def replaceQdot (t : List Char) : List Char :=
  t.map (fun c => if c = '?' then '.' else c)

/-- `replyText.replace(/\?$/g, '.')` (line 444): a trailing question mark
becomes a period. -/
def replaceTrailingQ (t : List Char) : List Char :=
  if t.getLast? = some '?' then t.dropLast ++ ['.'] else t

/-- `replyText.replace(/\s+\?$/g, '.')` (line 444): a trailing
whitespace-run-plus-question-mark becomes a single period. -/
def replaceWsQEnd (t : List Char) : List Char :=
  if t.getLast? = some '?' ∧ (t.dropLast.getLast?).any Char.isWhitespace then
    (t.dropLast.reverse.dropWhile Char.isWhitespace).reverse ++ ['.']
  else t

/-- Lines 443-445 of src/polling.js (first variant): when the candidate
contains a question mark, rewrite a trailing question mark. -/
def fixInterrogative (t : List Char) : List Char :=
  if '?' ∈ t then replaceWsQEnd (replaceTrailingQ t) else t

/-- Final text submitted to the publisher by the first variant: the
trailing-question rewrite of lines 443-445 followed by the global
question-mark replacement of line 452. -/
def finalizeA (t : List Char) : List Char :=
  replaceQdot (fixInterrogative t)

/-- `badPatterns` of the second variant of src/polling.js (line 798). -/
def badPatterns : List (List Char) :=
  [['?'],
   'i' :: Char.ofNat 39 :: 'd' :: ' ' :: 'n' :: 'e' :: 'e' :: 'd' :: [],
   "need more".toList, "what do".toList, "could you".toList,
   "can you share".toList, "to be clear".toList, "just to clarify".toList]

/-- `isQuestion` of the second variant (line 799): some banned pattern
occurs in the lower-cased candidate. -/
def isQuestionB (t : List Char) : Bool :=
  badPatterns.any (fun p => containsSub p (t.map Char.toLower))

/-- Reject filter of the second variant (lines 805-808): a candidate that
matches a banned pattern is skipped (`continue`), otherwise it is the text
handed to the publish call. -/
def postDecisionB (t : List Char) : Option (List Char) :=
  if isQuestionB t then none else some t

/-- JS `\\w` word character: ASCII letter, digit or underscore. -/
def isWordChar (c : Char) : Bool :=
  c.isAlphanum || c == '_'

/-- Scanner for `/@[\\w]+/g` with explicit fuel: each step consumes at
least one character, so fuel equal to the input length never runs out. -/
def matchMentionsF : Nat → List Char → List (List Char)
  | 0, _ => []
  | _, [] => []
  | fuel + 1, c :: rest =>
    if c = '@' then
      let run := rest.takeWhile isWordChar
      if run.isEmpty then matchMentionsF fuel rest
      else ('@' :: run) :: matchMentionsF fuel (rest.drop run.length)
    else matchMentionsF fuel rest

/-- Global matches of `/@[\\w]+/g`: each '@' followed by a maximal nonempty
run of word characters, scanning left to right without overlap. -/
def matchMentions (s : List Char) : List (List Char) :=
  matchMentionsF s.length s

/-- Word-boundary test after a match of the capitalized-phrase scanner: the
remaining input is exhausted or starts with a non-word character. -/
def boundaryOk (l : List Char) : Bool :=
  match l with
  | [] => true
  | d :: _ => !(isWordChar d)

/-- One attempt of `/\\b[A-Z][a-z]+(?:\\s+[A-Z][a-z]+)?\\b/` after the
leading uppercase letter `c` and its maximal lowercase run `run1` have
matched, with `rest1` the remaining input: greedily extend by one
whitespace run plus a second capitalized word when the boundary after the
extension holds, fall back to the first word alone when its own boundary
holds, otherwise fail.  Returns the matched token (if any) and the
position to continue scanning from. -/
def matchCapStep (c : Char) (run1 rest1 : List Char) : Option (List Char) × List Char :=
  let ws := rest1.takeWhile Char.isWhitespace
  match rest1.drop ws.length with
  | d :: rest2 =>
    if ws.isEmpty = false ∧ d.isUpper = true ∧
        (rest2.takeWhile Char.isLower).isEmpty = false ∧
        boundaryOk (rest2.drop (rest2.takeWhile Char.isLower).length) = true then
      (some (c :: run1 ++ ws ++ d :: rest2.takeWhile Char.isLower),
        rest2.drop (rest2.takeWhile Char.isLower).length)
    else if boundaryOk rest1 then (some (c :: run1), rest1)
    else (none, rest1)
  | [] =>
    if boundaryOk rest1 then (some (c :: run1), rest1)
    else (none, rest1)

/-- Scanner for `/\\b[A-Z][a-z]+(?:\\s+[A-Z][a-z]+)?\\b/g` with explicit
fuel: at a position preceded by a non-word character (`prevW = false`), an
uppercase letter followed by a maximal nonempty run of lowercase letters
starts a match attempt, resolved by `matchCapStep`.  Each step consumes at
least one character (`matchCapStep_snd_le` bounds the continuation), so
fuel equal to the input length never runs out. -/
def matchCapAuxF : Nat → List Char → Bool → List (List Char)
  | 0, _, _ => []
  | _, [], _ => []
  | fuel + 1, c :: rest, prevW =>
    if prevW = false ∧ c.isUpper = true then
      if (rest.takeWhile Char.isLower).isEmpty then matchCapAuxF fuel rest (isWordChar c)
      else
        match matchCapStep c (rest.takeWhile Char.isLower)
            (rest.drop (rest.takeWhile Char.isLower).length) with
        | (some tok, rem) => tok :: matchCapAuxF fuel rem true
        | (none, rem) => matchCapAuxF fuel rem true
    else matchCapAuxF fuel rest (isWordChar c)

/-- Matches of the capitalized-phrase regex over a whole string (the scan
starts at a word boundary). -/
def matchCapitalized (s : List Char) : List (List Char) :=
  matchCapAuxF s.length s false

/-- Occurrence counter for `hay.match(new RegExp(pat, 'g')).length` with a
literal pattern, with explicit fuel: left-to-right non-overlapping
occurrences of `pat` in `hay`. -/
def countOccurF (pat : List Char) : Nat → List Char → Nat
  | 0, _ => 0
  | _, [] => 0
  | fuel + 1, c :: rest =>
    if pat.isEmpty = false ∧ pat.isPrefixOf (c :: rest) then
      1 + countOccurF pat fuel ((c :: rest).drop pat.length)
    else countOccurF pat fuel rest

/-- Number of matches of `hay.match(new RegExp(pat, 'g'))` for a literal
pattern. -/
def countOccur (pat : List Char) (hay : List Char) : Nat :=
  countOccurF pat hay.length hay

/-- Topic candidate of identifyTopics
(src/src/stages/stage2-full-research.js): name, class and number of
occurrences in the thread text. -/
structure Topic where
  name : List Char
  type : String
  mentions : Nat
deriving DecidableEq, Repr

/-- JS `Map.has` on topic names. -/
def mapHas (l : List Topic) (n : List Char) : Bool :=
  l.any fun t => decide (t.name = n)

/-- JS `Map.set` keyed by topic name: replace in place, else append,
preserving insertion order. -/
def mapSet (l : List Topic) (t : Topic) : List Topic :=
  match l with
  | [] => [t]
  | a :: rest => if a.name = t.name then t :: rest else a :: mapSet rest t

/-- `conversationThread.map(t => t.text).join(' ')`. -/
def threadTextOf (thread : List (List Char)) : List Char :=
  List.intercalate [' '] thread

/-- Topic map built by identifyTopics before the final `slice(0, 10)`:
every handle mention becomes a `project` entry (name without the '@'),
then capitalized phrases longer than 3 characters become `concept` entries
while the map holds fewer than 8 topics; each entry records the occurrence
count of its token in the thread text. -/
def identifyTopicsMap (thread : List (List Char)) : List Topic :=
  let threadText := threadTextOf thread
  let mentions := matchMentions threadText
  let capitalized := matchCapitalized threadText
  let afterMentions := mentions.foldl
    (fun acc m => mapSet acc ⟨m.drop 1, "project", countOccur m threadText⟩) []
  capitalized.foldl
    (fun acc term =>
      if acc.length < 8 ∧ 3 < term.length ∧ mapHas acc term = false then
        mapSet acc ⟨term, "concept", countOccur term threadText⟩
      else acc) afterMentions

/-- identifyTopics from src/src/stages/stage2-full-research.js: empty
thread gives no topics, otherwise the first 10 entries of the topic map in
insertion order (`Array.from(topics.values()).slice(0, 10)`). -/
def identifyTopics (thread : List (List Char)) : List Topic :=
  if thread.isEmpty then []
  else (identifyTopicsMap thread).take 10

/-! ## Lemmas about the tracking maps -/

theorem lookupKey_setKey_self {α : Type} (m : List (String × α)) (k : String) (v : α) :
    lookupKey (setKey m k v) k = some v := by
  induction m with
  | nil => simp [setKey, lookupKey]
  | cons p rest ih =>
    by_cases h : p.1 = k
    · simp [setKey, lookupKey, h]
    · simp [setKey, lookupKey, h, ih]

theorem lookupKey_setKey_other {α : Type} (m : List (String × α)) (k k' : String) (v : α)
    (hne : k' ≠ k) : lookupKey (setKey m k v) k' = lookupKey m k' := by
  have hkk : ¬(k = k') := fun h => hne h.symm
  induction m with
  | nil => simp [setKey, lookupKey, hkk]
  | cons p rest ih =>
    by_cases h : p.1 = k
    · simp [setKey, lookupKey, h, hkk]
    · by_cases h' : p.1 = k'
      · simp [setKey, lookupKey, h, h', hne]
      · simp [setKey, lookupKey, h, h', ih]

theorem getCount_setKey (tr : List (String × Nat)) (k k' : String) (v : Nat) :
    getCount (setKey tr k v) k' = if k' = k then v else getCount tr k' := by
  by_cases h : k' = k
  · simp [getCount, h, lookupKey_setKey_self]
  · simp [getCount, h, lookupKey_setKey_other tr k k' v h]

/-! ## Lemmas about the cycle orchestrator -/

theorem eligible_components (st : CycleState) (seen : List String) (m : Mention)
    (h : eligible st seen m = true) :
    m.id ∉ st.repliedMentions ∧ m.id ∉ seen ∧
      getCount st.replyTracking (trackingKey m) < 3 := by
  simp only [eligible, Bool.and_eq_true, Bool.not_eq_true', decide_eq_false_iff_not,
    decide_eq_true_eq] at h
  exact ⟨h.1.1, h.1.2, h.2⟩

theorem runCycleAux_posted_not_replied (oracle : Mention → Option PostSuccess)
    (ms : List Mention) (st : CycleState) (seen : List String) (replied : Nat)
    (posted : List String) (x : String) (hx : x ∈ st.repliedMentions)
    (hp : x ∉ posted) : x ∉ (runCycleAux oracle ms st seen replied posted).2.2 := by
  induction ms generalizing st seen replied posted with
  | nil => simpa [runCycleAux] using hp
  | cons m rest ih =>
    by_cases h0 : 0 < replied
    · simpa [runCycleAux, h0] using hp
    · by_cases h1 : m.id ∈ st.repliedMentions
      · simpa [runCycleAux, h0, h1] using ih st seen replied posted hx hp
      · by_cases h2 : m.id ∈ seen
        · simpa [runCycleAux, h0, h1, h2] using ih st seen replied posted hx hp
        · by_cases h3 : 3 ≤ getCount st.replyTracking (trackingKey m)
          · simpa [runCycleAux, h0, h1, h2, h3] using ih st seen replied posted hx hp
          · have hxid : x ≠ m.id := by
              intro hxm
              exact h1 (hxm ▸ hx)
            cases horacle : oracle m with
            | some ps =>
              have hx' : x ∈ (applySuccess st m ps).repliedMentions := by
                simp [applySuccess, hx]
              have hp' : x ∉ m.id :: posted := by
                simp [hxid, hp]
              simpa [runCycleAux, h0, h1, h2, h3, horacle] using
                ih (applySuccess st m ps) (m.id :: seen) (replied + 1) (m.id :: posted) hx' hp'
            | none =>
              simpa [runCycleAux, h0, h1, h2, h3, horacle] using
                ih st (m.id :: seen) replied posted hx hp

theorem runCycleAux_tracking_le (oracle : Mention → Option PostSuccess)
    (ms : List Mention) (st : CycleState) (seen : List String) (replied : Nat)
    (posted : List String) (h : ∀ k, getCount st.replyTracking k ≤ 3) :
    ∀ k, getCount (runCycleAux oracle ms st seen replied posted).1.replyTracking k ≤ 3 := by
  induction ms generalizing st seen replied posted with
  | nil => simpa [runCycleAux] using h
  | cons m rest ih =>
    by_cases h0 : 0 < replied
    · simpa [runCycleAux, h0] using h
    · by_cases h1 : m.id ∈ st.repliedMentions
      · simpa [runCycleAux, h0, h1] using ih st seen replied posted h
      · by_cases h2 : m.id ∈ seen
        · simpa [runCycleAux, h0, h1, h2] using ih st seen replied posted h
        · by_cases h3 : 3 ≤ getCount st.replyTracking (trackingKey m)
          · simpa [runCycleAux, h0, h1, h2, h3] using ih st seen replied posted h
          · cases horacle : oracle m with
            | some ps =>
              have h' : ∀ k, getCount (applySuccess st m ps).replyTracking k ≤ 3 := by
                intro k
                have hlt : getCount st.replyTracking (trackingKey m) < 3 :=
                  Nat.lt_of_not_le h3
                by_cases hk : k = trackingKey m
                · simp [applySuccess, getCount_setKey, hk]
                  omega
                · simpa [applySuccess, getCount_setKey, hk] using h k
              simpa [runCycleAux, h0, h1, h2, h3, horacle] using
                ih (applySuccess st m ps) (m.id :: seen) (replied + 1) (m.id :: posted) h'
            | none =>
              simpa [runCycleAux, h0, h1, h2, h3, horacle] using
                ih st (m.id :: seen) replied posted h

theorem runCycleAux_replied_le_one (oracle : Mention → Option PostSuccess)
    (ms : List Mention) (st : CycleState) (seen : List String) (replied : Nat)
    (posted : List String) (h : replied ≤ 1) :
    (runCycleAux oracle ms st seen replied posted).2.1 ≤ 1 := by
  induction ms generalizing st seen replied posted with
  | nil => simpa [runCycleAux] using h
  | cons m rest ih =>
    by_cases h0 : 0 < replied
    · simpa [runCycleAux, h0] using h
    · have hr0 : replied = 0 := Nat.eq_zero_of_not_pos h0
      by_cases h1 : m.id ∈ st.repliedMentions
      · simpa [runCycleAux, h0, h1] using ih st seen replied posted h
      · by_cases h2 : m.id ∈ seen
        · simpa [runCycleAux, h0, h1, h2] using ih st seen replied posted h
        · by_cases h3 : 3 ≤ getCount st.replyTracking (trackingKey m)
          · simpa [runCycleAux, h0, h1, h2, h3] using ih st seen replied posted h
          · cases horacle : oracle m with
            | some ps =>
              simpa [runCycleAux, h0, h1, h2, h3, horacle] using
                ih (applySuccess st m ps) (m.id :: seen) (replied + 1) (m.id :: posted)
                  (by omega)
            | none =>
              simpa [runCycleAux, h0, h1, h2, h3, horacle] using
                ih st (m.id :: seen) replied posted h

/-! ## Claim theorems for the cycle orchestrator -/

/-- C1: if a mention's id is already in the persistent RepliedMentionSet,
the eligibility decision is deny for any tracking state and any
`mentionsSeen` set, and no poll cycle ever posts a reply to that
mention id. -/
theorem replied_mention_always_denied (st : CycleState) (seen : List String) (m : Mention)
    (h : m.id ∈ st.repliedMentions) :
    eligible st seen m = false ∧
      ∀ (oracle : Mention → Option PostSuccess) (mentions : List Mention),
        m.id ∉ (runCycle oracle mentions st).2.2 := by
  refine ⟨by simp [eligible, h], ?_⟩
  intro oracle mentions
  exact runCycleAux_posted_not_replied oracle mentions st [] 0 [] m.id h (by simp)

theorem replied_mention_always_denied_witness :
    eligible ⟨[], ["m1"], [], 0⟩ [] ⟨"m1", none, "a1", "hi"⟩ = false ∧
      "m1" ∉ (runCycle (fun _ => some ⟨"text", 0⟩) [⟨"m1", none, "a1", "hi"⟩]
        ⟨[], ["m1"], [], 0⟩).2.2 := by
  have h := replied_mention_always_denied ⟨[], ["m1"], [], 0⟩ [] ⟨"m1", none, "a1", "hi"⟩
    (by simp)
  exact ⟨h.1, h.2 (fun _ => some ⟨"text", 0⟩) [⟨"m1", none, "a1", "hi"⟩]⟩

/-- C2: the per-(conversationId, authorId) reply count never exceeds the
ceiling of 3: a mention whose pair is already at the ceiling is denied, and
since the count is bumped only on a successful publish of an eligible
mention, a tracking map with all counts at most 3 still has all counts at
most 3 after a full cycle. -/
theorem pair_reply_count_never_exceeds_ceiling (oracle : Mention → Option PostSuccess)
    (mentions : List Mention) (st : CycleState)
    (h : ∀ k, getCount st.replyTracking k ≤ 3) :
    (∀ seen m, 3 ≤ getCount st.replyTracking (trackingKey m) → eligible st seen m = false) ∧
      ∀ k, getCount (runCycle oracle mentions st).1.replyTracking k ≤ 3 := by
  constructor
  · intro seen m hk
    simp [eligible, Nat.not_lt.mpr hk]
  · exact runCycleAux_tracking_le oracle mentions st [] 0 [] h

theorem pair_reply_count_never_exceeds_ceiling_witness :
    eligible ⟨[("c1:a1", 3)], [], [], 0⟩ [] ⟨"m2", some "c1", "a1", "hi"⟩ = false ∧
      getCount (runCycle (fun _ => some ⟨"text", 0⟩) [⟨"m2", some "c1", "a1", "hi"⟩]
        ⟨[("c1:a1", 3)], [], [], 0⟩).1.replyTracking "c1:a1" ≤ 3 := by
  have h := pair_reply_count_never_exceeds_ceiling (fun _ => some ⟨"text", 0⟩)
    [⟨"m2", some "c1", "a1", "hi"⟩] ⟨[("c1:a1", 3)], [], [], 0⟩
    (by intro k; simp only [getCount, lookupKey]; split <;> simp)
  exact ⟨h.1 [] ⟨"m2", some "c1", "a1", "hi"⟩ (by decide), h.2 "c1:a1"⟩

/-- C3: within a single poll cycle the orchestrator publishes at most one
reply, whatever the batch of mentions and whatever the outcomes of the
publish calls: the `repliedThisCycle` counter at the end of the cycle is
at most 1. -/
theorem at_most_one_reply_per_cycle (oracle : Mention → Option PostSuccess)
    (mentions : List Mention) (st : CycleState) :
    (runCycle oracle mentions st).2.1 ≤ 1 :=
  runCycleAux_replied_le_one oracle mentions st [] 0 [] (Nat.zero_le 1)

/-- C6: when the publish for an eligible mention fails (the call threw or
returned no platform id, `oracle m = none`), processing that mention
changes nothing: the cycle over `m :: rest` equals the cycle over `rest`
with the same tracking state (reply tracking map, replied-mention set,
conversation memory, reply counter), the same `repliedThisCycle` count and
the same posted list; only the cycle-local `mentionsSeen` records the id. -/
theorem publish_failure_leaves_state_unchanged (oracle : Mention → Option PostSuccess)
    (m : Mention) (rest : List Mention) (st : CycleState) (seen posted : List String)
    (helig : eligible st seen m = true) (hfail : oracle m = none) :
    runCycleAux oracle (m :: rest) st seen 0 posted =
      runCycleAux oracle rest st (m.id :: seen) 0 posted := by
  obtain ⟨h1, h2, h3⟩ := eligible_components st seen m helig
  simp [runCycleAux, h1, h2, Nat.not_le.mpr h3, hfail]

theorem publish_failure_leaves_state_unchanged_witness :
    runCycleAux (fun _ => none) [⟨"m1", some "c1", "a1", "hi"⟩] ⟨[], [], [], 0⟩ [] 0 [] =
      runCycleAux (fun _ => none) [] ⟨[], [], [], 0⟩ ["m1"] 0 [] :=
  publish_failure_leaves_state_unchanged (fun _ => none) ⟨"m1", some "c1", "a1", "hi"⟩
    [] ⟨[], [], [], 0⟩ [] [] (by decide) rfl

/-! ## Claim theorems for follow-up detection and the webhook dedup -/

set_option maxRecDepth 4096 in
/-- C7: the follow-up check's contract holds when a mention text is
supplied (no entry gives false; an entry gives true exactly when within
the 5-minute window with materially different text), but the polling
orchestrator invokes `isFollowUp(authorId, convId)` without the mention
text, and that call raises a TypeError (modelled as `Except.error`)
whenever a ConversationMemoryEntry exists for the pair, instead of
returning false as the claim states. -/
theorem isFollowUp_orchestrator_call_throws :
    isFollowUp [("a1:c1", ⟨"prev reply", "old mention", 0, 1⟩)] "a1" "c1" none 1000 =
      .error () ∧
    isFollowUp [("a1:c1", ⟨"prev reply", "old mention", 0, 1⟩)] "a1" "c1"
      (some "a new question") 1000 = .ok true ∧
    isFollowUp [] "a1" "c1" none 1000 = .ok false :=
  ⟨rfl, rfl, rfl⟩

/-- C10: `hasRecentReply` ignores the database error argument entirely and
never rejects: for every error and row it resolves to whether a row came
back, so with an error (where sqlite supplies no row) it resolves false
and the 24-hour per-author deduplication is silently disabled. -/
theorem hasRecentReply_ignores_db_error :
    (∀ err row, hasRecentReply err row = row.isSome) ∧
      ∀ e, hasRecentReply (some e) none = false :=
  ⟨fun _ _ => rfl, fun _ => rfl⟩

/-! ## Claim theorem for the thread-origin stage -/

/-- C8: findThreadOrigin returns null when the conversation fetch throws
or returns no tweets; on a non-empty fetch it returns the fetched tweets
sorted ascending by `created_at` (a permutation of the fetched list), with
the root at the head being an element of minimal creation time and
`threadLength` the number of fetched tweets. -/
theorem findThreadOrigin_spec :
    findThreadOrigin (.error ()) = none ∧ findThreadOrigin (.ok []) = none ∧
      ∀ data : List Tweet, data ≠ [] →
        ∃ td, findThreadOrigin (.ok data) = some td ∧
          List.Perm td.allTweets data ∧ List.Sorted tweetLe td.allTweets ∧
          td.allTweets.head? = some td.root ∧ td.root ∈ data ∧
          (∀ t ∈ data, td.root.created_at ≤ t.created_at) ∧
          td.threadLength = data.length := by
  refine ⟨rfl, rfl, ?_⟩
  intro data hne
  have hperm : List.Perm (List.insertionSort tweetLe data) data :=
    List.perm_insertionSort tweetLe data
  have hsorted : List.Sorted tweetLe (List.insertionSort tweetLe data) :=
    List.sorted_insertionSort tweetLe data
  cases hs : List.insertionSort tweetLe data with
  | nil =>
    exact absurd ((hs ▸ hperm).symm.eq_nil) hne
  | cons root rest =>
    rw [hs] at hperm hsorted
    refine ⟨⟨root, root :: rest, (root :: rest).length⟩, ?_, hperm, hsorted, rfl, ?_, ?_, ?_⟩
    · simp only [findThreadOrigin, List.isEmpty_iff, hne, if_false, hs]
    · exact hperm.subset (List.mem_cons_self root rest)
    · intro t ht
      have ht' : t ∈ root :: rest := hperm.symm.subset ht
      rcases List.mem_cons.mp ht' with h | h
      · exact le_of_eq (congrArg Tweet.created_at h.symm)
      · exact List.rel_of_sorted_cons hsorted t h
    · exact hperm.length_eq

theorem findThreadOrigin_spec_witness :
    ∃ td, findThreadOrigin (.ok [⟨"t2", "later", 5⟩, ⟨"t1", "earlier", 3⟩]) = some td ∧
      List.Perm td.allTweets [⟨"t2", "later", 5⟩, ⟨"t1", "earlier", 3⟩] ∧
      List.Sorted tweetLe td.allTweets ∧
      td.allTweets.head? = some td.root ∧
      td.root ∈ [Tweet.mk "t2" "later" 5, Tweet.mk "t1" "earlier" 3] ∧
      (∀ t ∈ [Tweet.mk "t2" "later" 5, Tweet.mk "t1" "earlier" 3],
        td.root.created_at ≤ t.created_at) ∧
      td.threadLength = [Tweet.mk "t2" "later" 5, Tweet.mk "t1" "earlier" 3].length :=
  findThreadOrigin_spec.2.2 [⟨"t2", "later", 5⟩, ⟨"t1", "earlier", 3⟩] (by decide)

/-! ## Lemmas about the post-processing helpers -/

theorem matchCapStep_snd_le (c : Char) (run1 rest1 : List Char) :
    (matchCapStep c run1 rest1).2.length ≤ rest1.length := by
  unfold matchCapStep
  cases hw : rest1.drop (rest1.takeWhile Char.isWhitespace).length with
  | nil =>
    simp only [hw]
    split <;> simp
  | cons d rest2 =>
    have h2 : rest2.length + 1 ≤ rest1.length := by
      have := congrArg List.length hw
      simp only [List.length_drop, List.length_cons] at this
      omega
    simp only [hw]
    split
    · simp only [List.length_drop]
      omega
    · split <;> simp

theorem lastIndexOf_lt_length (l : List Char) (c : Char) :
    lastIndexOf l c < (l.length : Int) := by
  induction l with
  | nil => simp [lastIndexOf]
  | cons a rest ih =>
    simp only [lastIndexOf, List.length_cons]
    by_cases h : 0 ≤ lastIndexOf rest c
    · simp only [if_pos h]
      push_cast
      omega
    · simp only [if_neg h]
      by_cases h2 : a = c
      · simp only [if_pos h2]
        push_cast
        omega
      · simp only [if_neg h2]
        push_cast
        omega

theorem dropTrailingPunct_prefix_self (l : List Char) :
    List.IsPrefix (dropTrailingPunct l) l := by
  have h1 : l.reverse.dropWhile isStripPunct <:+ l.reverse :=
    List.dropWhile_suffix _
  exact List.reverse_suffix.mp (by simpa [dropTrailingPunct] using h1)

theorem mem_containsSub (a : Char) (hay : List Char) (h : a ∈ hay) :
    containsSub [a] hay = true := by
  induction hay with
  | nil => cases h
  | cons c rest ih =>
    rcases List.mem_cons.mp h with rfl | h'
    · simp [containsSub, List.isPrefixOf]
    · simp [containsSub, ih h']

/-! ## Claim theorems for reply post-processing -/

set_option maxRecDepth 100000 in
/-- C4 counterexample: the claimed truncation law fails on the code.  On a
241-character input with no space, the second variant hard-cuts to 240
characters with no appended ellipsis (a silent mid-word cut); and on a long
input whose last space is past index 200, the first variant's output is a
word-boundary cut with an extra '.' appended, which is not a clean prefix
of the input either. -/
theorem truncation_law_fails :
    (240 < (List.replicate 241 'a').length ∧
      claimTruncLaw (List.replicate 241 'a') (truncateB (List.replicate 241 'a')) = false) ∧
    (240 < (List.replicate 220 'a' ++ ' ' :: List.replicate 30 'b').length ∧
      claimTruncLaw (List.replicate 220 'a' ++ ' ' :: List.replicate 30 'b')
        (truncateA (List.replicate 220 'a' ++ ' ' :: List.replicate 30 'b')) = false) := by
  refine ⟨⟨by decide, by decide⟩, ⟨by decide, by decide⟩⟩

/-- C4 (amended): for any generated reply longer than 240 characters, both
variants emit at most 240 characters; the first variant emits either a
prefix of the input cut at the last space (possibly with a terminating '.'
appended when it does not already end in '.' or '!') or the first 237
characters plus "..."; the second variant always emits a bare prefix of
the input — a word-boundary cut with trailing punctuation stripped, or a
240-character hard cut with no appended indication. -/
theorem truncation_amended (t : List Char) (h : 240 < t.length) :
    (truncateA t).length ≤ 240 ∧ (truncateB t).length ≤ 240 ∧
      ((∃ k ≤ 239, truncateA t = t.take k ∨ truncateA t = t.take k ++ ['.']) ∨
        truncateA t = t.take 237 ++ ellipsis) ∧
      List.IsPrefix (truncateB t) t := by
  have hlen240 : (t.take 240).length = 240 := by
    rw [List.length_take]
    omega
  by_cases hsp : 200 < lastIndexOf (t.take 240) ' '
  · have hpos : 0 ≤ lastIndexOf (t.take 240) ' ' := by omega
    have hlt : lastIndexOf (t.take 240) ' ' < (240 : Int) := by
      have := lastIndexOf_lt_length (t.take 240) ' '
      rwa [hlen240] at this
    set n := (lastIndexOf (t.take 240) ' ').toNat with hn
    have hcast : (n : Int) = lastIndexOf (t.take 240) ' ' := Int.toNat_of_nonneg hpos
    have hn239 : n ≤ 239 := by omega
    have hcut : (t.take 240).take n = t.take n := by
      rw [List.take_take]
      congr 1
      omega
    have hcutlen : (t.take n).length = n := by
      rw [List.length_take]
      omega
    have hA : truncateA t =
        (if (t.take n).getLast? = some '.' ∨ (t.take n).getLast? = some '!' then t.take n
          else t.take n ++ ['.']) := by
      simp only [truncateA, if_pos h, if_pos hsp, hcut]
    have hB : truncateB t = dropTrailingPunct (t.take n) := by
      simp only [truncateB, if_pos h, if_pos hsp, hcut]
    have hBpre : List.IsPrefix (truncateB t) t := by
      rw [hB]
      exact (dropTrailingPunct_prefix_self (t.take n)).trans (List.take_prefix n t)
    refine ⟨?_, ?_, ?_, hBpre⟩
    · rw [hA]
      by_cases hend : (t.take n).getLast? = some '.' ∨ (t.take n).getLast? = some '!'
      · rw [if_pos hend, hcutlen]
        omega
      · rw [if_neg hend, List.length_append, hcutlen]
        simp
        omega
    · have := hBpre.length_le
      have hBlen : (truncateB t).length ≤ n := by
        rw [hB]
        calc (dropTrailingPunct (t.take n)).length
            ≤ (t.take n).length := (dropTrailingPunct_prefix_self (t.take n)).length_le
          _ = n := hcutlen
      omega
    · left
      refine ⟨n, hn239, ?_⟩
      rw [hA]
      by_cases hend : (t.take n).getLast? = some '.' ∨ (t.take n).getLast? = some '!'
      · rw [if_pos hend]
        exact Or.inl rfl
      · rw [if_neg hend]
        exact Or.inr rfl
  · have hA : truncateA t = t.take 237 ++ ellipsis := by
      simp only [truncateA, if_pos h, if_neg hsp, List.take_take]
      congr 1
    have hB : truncateB t = t.take 240 := by
      simp only [truncateB, if_pos h, if_neg hsp, List.take_take]
      congr 1
    refine ⟨?_, ?_, Or.inr hA, ?_⟩
    · rw [hA, List.length_append, List.length_take]
      simp [ellipsis]
    · rw [hB, List.length_take]
      omega
    · rw [hB]
      exact List.take_prefix 240 t

theorem truncation_amended_witness :
    (truncateA (List.replicate 241 'a')).length ≤ 240 ∧
      (truncateB (List.replicate 241 'a')).length ≤ 240 ∧
      ((∃ k ≤ 239, truncateA (List.replicate 241 'a') = (List.replicate 241 'a').take k ∨
          truncateA (List.replicate 241 'a') = (List.replicate 241 'a').take k ++ ['.']) ∨
        truncateA (List.replicate 241 'a') = (List.replicate 241 'a').take 237 ++ ellipsis) ∧
      List.IsPrefix (truncateB (List.replicate 241 'a')) (List.replicate 241 'a') :=
  truncation_amended (List.replicate 241 'a') (by rw [List.length_replicate]; omega)

/-- C5: no posted reply contains a question mark, in either variant: the
first variant's final rewrite replaces every '?' with '.' before the
publish call, and the second variant's filter rejects (skips) any
candidate containing '?', so whatever text reaches the publisher is free
of question marks. -/
theorem posted_reply_has_no_question_mark (t : List Char) :
    '?' ∉ finalizeA t ∧ ∀ r, postDecisionB t = some r → '?' ∉ r := by
  constructor
  · intro hmem
    simp only [finalizeA, replaceQdot, List.mem_map] at hmem
    obtain ⟨a, _, ha⟩ := hmem
    by_cases hq : a = '?'
    · rw [if_pos hq] at ha
      exact absurd ha (by decide)
    · rw [if_neg hq] at ha
      exact hq ha
  · intro r hr hmem
    by_cases hq : isQuestionB t = true
    · simp [postDecisionB, hq] at hr
    · simp [postDecisionB, hq] at hr
      subst hr
      apply hq
      have hmem' : '?' ∈ t.map Char.toLower :=
        List.mem_map.mpr ⟨'?', hmem, by decide⟩
      have hc : containsSub ['?'] (t.map Char.toLower) = true :=
        mem_containsSub '?' (t.map Char.toLower) hmem'
      simp [isQuestionB, badPatterns, hc]

theorem posted_reply_has_no_question_mark_witness :
    '?' ∉ finalizeA ['o', 'k'] ∧ '?' ∉ (['o', 'k'] : List Char) :=
  ⟨(posted_reply_has_no_question_mark ['o', 'k']).1,
    (posted_reply_has_no_question_mark ['o', 'k']).2 ['o', 'k'] (by decide)⟩

/-! ## Lemmas about the topic map -/

theorem mem_mapSet {l : List Topic} {t x : Topic} (hx : x ∈ mapSet l t) :
    x = t ∨ x ∈ l := by
  induction l with
  | nil => simpa [mapSet] using hx
  | cons a rest ih =>
    by_cases h : a.name = t.name
    · rw [mapSet, if_pos h] at hx
      rcases List.mem_cons.mp hx with h1 | h1
      · exact Or.inl h1
      · exact Or.inr (List.mem_cons_of_mem a h1)
    · rw [mapSet, if_neg h] at hx
      rcases List.mem_cons.mp hx with h1 | h1
      · exact Or.inr (h1 ▸ List.mem_cons_self a rest)
      · rcases ih h1 with h2 | h2
        · exact Or.inl h2
        · exact Or.inr (List.mem_cons_of_mem a h2)

theorem names_mapSet {l : List Topic} {t : Topic} {n : List Char}
    (hn : n ∈ (mapSet l t).map Topic.name) : n = t.name ∨ n ∈ l.map Topic.name := by
  obtain ⟨x, hx, rfl⟩ := List.mem_map.mp hn
  rcases mem_mapSet hx with h | h
  · exact Or.inl (congrArg Topic.name h)
  · exact Or.inr (List.mem_map.mpr ⟨x, h, rfl⟩)

theorem nodup_names_mapSet {l : List Topic} (t : Topic)
    (h : (l.map Topic.name).Nodup) : ((mapSet l t).map Topic.name).Nodup := by
  induction l with
  | nil => simp [mapSet]
  | cons a rest ih =>
    rw [List.map_cons, List.nodup_cons] at h
    by_cases hcase : a.name = t.name
    · rw [mapSet, if_pos hcase, List.map_cons, List.nodup_cons]
      exact ⟨hcase ▸ h.1, h.2⟩
    · rw [mapSet, if_neg hcase, List.map_cons, List.nodup_cons]
      refine ⟨?_, ih h.2⟩
      intro hmem
      rcases names_mapSet hmem with h1 | h1
      · exact hcase h1
      · exact h.1 h1

theorem mem_foldl_mapSet {β : Type} (f : β → Topic) (ms : List β) (acc : List Topic)
    (x : Topic) (hx : x ∈ ms.foldl (fun a m => mapSet a (f m)) acc) :
    x ∈ acc ∨ ∃ m ∈ ms, x = f m := by
  induction ms generalizing acc with
  | nil => exact Or.inl hx
  | cons m rest ih =>
    simp only [List.foldl_cons] at hx
    rcases ih (mapSet acc (f m)) hx with h | h
    · rcases mem_mapSet h with h1 | h1
      · exact Or.inr ⟨m, List.mem_cons_self m rest, h1⟩
      · exact Or.inl h1
    · obtain ⟨m', hm', hx'⟩ := h
      exact Or.inr ⟨m', List.mem_cons_of_mem m hm', hx'⟩

theorem nodup_foldl_mapSet {β : Type} (f : β → Topic) (ms : List β) (acc : List Topic)
    (h : (acc.map Topic.name).Nodup) :
    (((ms.foldl (fun a m => mapSet a (f m)) acc)).map Topic.name).Nodup := by
  induction ms generalizing acc with
  | nil => exact h
  | cons m rest ih => exact ih _ (nodup_names_mapSet (f m) h)

theorem mem_foldl_capsAdd (tt : List Char) (terms : List (List Char)) (acc : List Topic)
    (x : Topic)
    (hx : x ∈ terms.foldl
      (fun a term =>
        if a.length < 8 ∧ 3 < term.length ∧ mapHas a term = false then
          mapSet a ⟨term, "concept", countOccur term tt⟩
        else a) acc) :
    x ∈ acc ∨ ∃ term ∈ terms, 3 < term.length ∧ x = ⟨term, "concept", countOccur term tt⟩ := by
  induction terms generalizing acc with
  | nil => exact Or.inl hx
  | cons term rest ih =>
    simp only [List.foldl_cons] at hx
    by_cases hc : acc.length < 8 ∧ 3 < term.length ∧ mapHas acc term = false
    · rw [if_pos hc] at hx
      rcases ih _ hx with h | h
      · rcases mem_mapSet h with h1 | h1
        · exact Or.inr ⟨term, List.mem_cons_self term rest, hc.2.1, h1⟩
        · exact Or.inl h1
      · obtain ⟨term', ht', hl', hx'⟩ := h
        exact Or.inr ⟨term', List.mem_cons_of_mem term ht', hl', hx'⟩
    · rw [if_neg hc] at hx
      rcases ih _ hx with h | h
      · exact Or.inl h
      · obtain ⟨term', ht', hl', hx'⟩ := h
        exact Or.inr ⟨term', List.mem_cons_of_mem term ht', hl', hx'⟩

theorem nodup_foldl_capsAdd (tt : List Char) (terms : List (List Char)) (acc : List Topic)
    (h : (acc.map Topic.name).Nodup) :
    ((terms.foldl
      (fun a term =>
        if a.length < 8 ∧ 3 < term.length ∧ mapHas a term = false then
          mapSet a ⟨term, "concept", countOccur term tt⟩
        else a) acc).map Topic.name).Nodup := by
  induction terms generalizing acc with
  | nil => exact h
  | cons term rest ih =>
    simp only [List.foldl_cons]
    by_cases hc : acc.length < 8 ∧ 3 < term.length ∧ mapHas acc term = false
    · rw [if_pos hc]
      exact ih _ (nodup_names_mapSet _ h)
    · rw [if_neg hc]
      exact ih _ h

/-! ## Claim theorems for topic identification -/

set_option maxRecDepth 100000 in
/-- C9 counterexample: identifyTopics does not select the top candidates
by mention frequency.  On a thread with eleven distinct handles where the
eleventh (@zz) occurs three times and the others once, the topic map holds
all eleven candidates (with @zz recorded at frequency 3), but
`slice(0, 10)` keeps the first ten in insertion order, so the ten returned
topics all have frequency 1 and the most frequent candidate is dropped. -/
theorem identifyTopics_not_top_by_frequency :
    (identifyTopics ["@aa @ab @ac @ad @ae @af @ag @ah @ai @aj @zz @zz @zz".toList]).length
        = 10 ∧
      (∀ t ∈ identifyTopics ["@aa @ab @ac @ad @ae @af @ag @ah @ai @aj @zz @zz @zz".toList],
        t.mentions = 1 ∧ t.name ≠ ['z', 'z']) ∧
      (⟨['z', 'z'], "project", 3⟩ : Topic) ∈
        identifyTopicsMap ["@aa @ab @ac @ad @ae @af @ag @ah @ai @aj @zz @zz @zz".toList] :=
  ⟨by decide, by decide, by decide⟩

/-- C9 (amended): identifyTopics scans the joined thread text for handle
references (classified as `project` candidates, named without the '@') and
capitalized phrases longer than 3 characters (classified as `concept`
candidates, admitted only while the map holds fewer than 8 topics),
dedupes them by name, records each candidate's occurrence count in the
thread text, and returns at most 10 candidates in order of first
appearance — not by mention frequency. -/
theorem identifyTopics_amended (thread : List (List Char)) :
    (identifyTopics thread).length ≤ 10 ∧
      ((identifyTopics thread).map Topic.name).Nodup ∧
      ∀ t ∈ identifyTopics thread,
        (t.type = "project" ∧
          ∃ m ∈ matchMentions (threadTextOf thread), t.name = m.drop 1 ∧
            t.mentions = countOccur m (threadTextOf thread)) ∨
        (t.type = "concept" ∧ t.name ∈ matchCapitalized (threadTextOf thread) ∧
          3 < t.name.length ∧ t.mentions = countOccur t.name (threadTextOf thread)) := by
  by_cases hemp : thread.isEmpty
  · simp [identifyTopics, hemp]
  · have hmap : ∀ x ∈ identifyTopicsMap thread,
        (x.type = "project" ∧
          ∃ m ∈ matchMentions (threadTextOf thread), x.name = m.drop 1 ∧
            x.mentions = countOccur m (threadTextOf thread)) ∨
        (x.type = "concept" ∧ x.name ∈ matchCapitalized (threadTextOf thread) ∧
          3 < x.name.length ∧ x.mentions = countOccur x.name (threadTextOf thread)) := by
      intro x hx
      simp only [identifyTopicsMap] at hx
      rcases mem_foldl_capsAdd _ _ _ _ hx with h | h
      · rcases mem_foldl_mapSet
          (fun m => ⟨m.drop 1, "project", countOccur m (threadTextOf thread)⟩) _ _ _ h
          with h1 | h1
        · simp at h1
        · obtain ⟨m, hm, rfl⟩ := h1
          exact Or.inl ⟨rfl, m, hm, rfl, rfl⟩
      · obtain ⟨term, hterm, hlen, rfl⟩ := h
        exact Or.inr ⟨rfl, hterm, hlen, rfl⟩
    have hnodup : ((identifyTopicsMap thread).map Topic.name).Nodup := by
      simp only [identifyTopicsMap]
      apply nodup_foldl_capsAdd
      apply nodup_foldl_mapSet
      simp
    refine ⟨?_, ?_, ?_⟩
    · simp only [identifyTopics, if_neg hemp]
      exact List.length_take_le 10 _
    · simp only [identifyTopics, if_neg hemp]
      rw [List.map_take]
      exact hnodup.sublist (List.take_sublist 10 _)
    · intro t ht
      simp only [identifyTopics, if_neg hemp] at ht
      exact hmap t (List.take_subset 10 _ ht)

theorem identifyTopics_amended_witness :
    (identifyTopics [['@', 'a', 'b']]).length ≤ 10 ∧
      ((identifyTopics [['@', 'a', 'b']]).map Topic.name).Nodup ∧
      (((⟨['a', 'b'], "project", 1⟩ : Topic).type = "project" ∧
        ∃ m ∈ matchMentions (threadTextOf [['@', 'a', 'b']]),
          (⟨['a', 'b'], "project", 1⟩ : Topic).name = m.drop 1 ∧
          (⟨['a', 'b'], "project", 1⟩ : Topic).mentions =
            countOccur m (threadTextOf [['@', 'a', 'b']])) ∨
       ((⟨['a', 'b'], "project", 1⟩ : Topic).type = "concept" ∧
        (⟨['a', 'b'], "project", 1⟩ : Topic).name ∈
          matchCapitalized (threadTextOf [['@', 'a', 'b']]) ∧
        3 < (⟨['a', 'b'], "project", 1⟩ : Topic).name.length ∧
        (⟨['a', 'b'], "project", 1⟩ : Topic).mentions =
          countOccur (⟨['a', 'b'], "project", 1⟩ : Topic).name
            (threadTextOf [['@', 'a', 'b']]))) :=
  ⟨(identifyTopics_amended [['@', 'a', 'b']]).1,
    (identifyTopics_amended [['@', 'a', 'b']]).2.1,
    (identifyTopics_amended [['@', 'a', 'b']]).2.2 ⟨['a', 'b'], "project", 1⟩ (by decide)⟩
